import Mathlib

/-!
Verification of the transactional iptables chain manager
(`calico/felix/fiptables.py`).

The development shallowly embeds the relevant parts of the source:

* Python `set` of chain names is modelled as `Finset String`.
* Python `dict` from chain name to a value is modelled as an association
  list `List (String × α)`; `dictGet` is `d.get(k, default)`, `dictSet` is
  `d[k] = v`, `dictRemove` is `d.pop(k, None)` / `del d[k]`.
  A `defaultdict(set)` read that auto-creates an empty entry is observably
  the same as `d.get(k, set())` for every use in the source, because the
  source immediately deletes entries whose set became empty
  (see `_Transaction._update_deps`), and `keys()` is only consulted on
  dictionaries whose values are never empty.
* `copy.deepcopy` is the identity on immutable Lean values.
* Exceptions (`NothingToDo`, `IndexError`, out-of-fuel) are modelled with
  `Option`.
-/

namespace Fiptables

/-! ## Association-list model of Python dicts -/

def dictGet {α : Type} : List (String × α) → String → α → α
  | [], _, d => d
  | (k', v) :: rest, k, d => if k' = k then v else dictGet rest k d

def dictRemove {α : Type} (k : String) : List (String × α) → List (String × α)
  | [] => []
  | (k', v) :: rest =>
      if k' = k then dictRemove k rest else (k', v) :: dictRemove k rest

def dictSet {α : Type} (k : String) (v : α) (d : List (String × α)) :
    List (String × α) :=
  (k, v) :: dictRemove k d

def dictKeys {α : Type} (d : List (String × α)) : List String :=
  d.map Prod.fst

/-- The key set of a dict (Python `set(d.keys())`). -/
def keysFinset {α : Type} (d : List (String × α)) : Finset String :=
  (dictKeys d).toFinset

/-- Sort the underlying list of a multiset of strings (insertion sort, so
that the definition reduces inside the kernel). -/
def msortedList (m : Multiset String) : List String :=
  Quot.liftOn m (fun l => l.insertionSort (fun a b => a ≤ b))
    (fun l₁ l₂ h =>
      List.eq_of_perm_of_sorted
        ((List.perm_insertionSort _ l₁).trans
          (h.trans (List.perm_insertionSort _ l₂).symm))
        (List.sorted_insertionSort _ l₁) (List.sorted_insertionSort _ l₂))

theorem mem_msortedList (a : String) (m : Multiset String) :
    a ∈ msortedList m ↔ a ∈ m :=
  Quot.inductionOn m fun l => (List.perm_insertionSort _ l).mem_iff

/-- Enumerate a Python `set` as a list (iteration order is unspecified in
Python; we model it with the sorted order, which is computable). -/
def setToList (s : Finset String) : List String :=
  msortedList s.1

theorem mem_setToList (a : String) (s : Finset String) :
    a ∈ setToList s ↔ a ∈ s := mem_msortedList a s.1

theorem setToList_empty : setToList ∅ = [] := rfl

@[simp] theorem dictGet_nil {α : Type} (k : String) (d : α) :
    dictGet [] k d = d := rfl

theorem dictGet_cons {α : Type} (k' k : String) (v d : α)
    (rest : List (String × α)) :
    dictGet ((k', v) :: rest) k d = if k' = k then v else dictGet rest k d :=
  rfl

theorem dictGet_dictRemove_self {α : Type} (k : String) (d : α)
    (l : List (String × α)) : dictGet (dictRemove k l) k d = d := by
  induction l with
  | nil => rfl
  | cons p rest ih =>
      obtain ⟨k', v⟩ := p
      by_cases h : k' = k
      · simp [dictRemove, h, ih]
      · simp [dictRemove, h, dictGet_cons, ih]

theorem dictGet_dictRemove_ne {α : Type} (k a : String) (hne : k ≠ a) (d : α)
    (l : List (String × α)) : dictGet (dictRemove k l) a d = dictGet l a d := by
  induction l with
  | nil => rfl
  | cons p rest ih =>
      obtain ⟨k', v⟩ := p
      by_cases h : k' = k
      · subst h
        simp [dictRemove, dictGet_cons, hne, ih]
      · simp [dictRemove, h, dictGet_cons, ih]

theorem dictGet_dictSet {α : Type} (k a : String) (v d : α)
    (l : List (String × α)) :
    dictGet (dictSet k v l) a d = if k = a then v else dictGet l a d := by
  by_cases h : k = a
  · simp [dictSet, dictGet_cons, h]
  · simp [dictSet, dictGet_cons, h, dictGet_dictRemove_ne k a h]

theorem dictRemove_dictRemove {α : Type} (k : String)
    (l : List (String × α)) :
    dictRemove k (dictRemove k l) = dictRemove k l := by
  induction l with
  | nil => rfl
  | cons p rest ih =>
      obtain ⟨k', v⟩ := p
      by_cases h : k' = k
      · simp [dictRemove, h, ih]
      · simp [dictRemove, h, ih]

/-! ## The `_Transaction` class (fiptables.py lines 572-725)

Fields mirror `_Transaction.__init__`.  The three memoised properties
(`_chains_to_stub`, `_affected_chains`, `_chains_to_delete`) are pure
caches invalidated on every mutation, so they are not part of the state;
the derived sets are modelled as functions. -/

structure Txn where
  already_stubbed : Finset String
  updates : List (String × List String)
  deletes : Finset String
  expl_prog_chains : Finset String
  required_chns : List (String × Finset String)
  requiring_chns : List (String × Finset String)
deriving DecidableEq

/-- `_Transaction.__init__`: `already_stubbed` is the snapshot
`set(old_requiring_chains.keys()) - old_expl_prog_chains`; the three
indexes are deep copies (identity on values) of the manager's. -/
def mkTxn (old_expl_prog_chains : Finset String)
    (old_deps old_requiring_chains : List (String × Finset String)) : Txn :=
  { already_stubbed := keysFinset old_requiring_chains \ old_expl_prog_chains
    updates := []
    deletes := ∅
    expl_prog_chains := old_expl_prog_chains
    required_chns := old_deps
    requiring_chns := old_requiring_chains }

/-- One iteration of the first loop of `_update_deps`:
`requiring_chns[dependency].discard(chain)` followed by deleting the
entry if its set became empty. -/
def removeRevDep (chain : String)
    (requiring : List (String × Finset String)) (dep : String) :
    List (String × Finset String) :=
  let s := (dictGet requiring dep ∅).erase chain
  if s = ∅ then dictRemove dep requiring else dictSet dep s requiring

/-- One iteration of the second loop of `_update_deps`:
`requiring_chns[dependency].add(chain)`. -/
def addRevDep (chain : String)
    (requiring : List (String × Finset String)) (dep : String) :
    List (String × Finset String) :=
  dictSet dep (insert chain (dictGet requiring dep ∅)) requiring

/-- `_Transaction._update_deps(chain, new_deps)`: returns the updated
`(required_chns, requiring_chns)` pair. -/
def update_deps (chain : String) (new_deps : Finset String)
    (required requiring : List (String × Finset String)) :
    List (String × Finset String) × List (String × Finset String) :=
  let old_deps := dictGet required chain ∅
  let requiring1 := (setToList old_deps).foldl (removeRevDep chain) requiring
  let requiring2 := (setToList new_deps).foldl (addRevDep chain) requiring1
  let required' :=
    if new_deps = ∅ then dictRemove chain required
    else dictSet chain new_deps required
  (required', requiring2)

/-- `_Transaction.store_delete(chain)`. -/
def store_delete (chain : String) (t : Txn) : Txn :=
  let p := update_deps chain ∅ t.required_chns t.requiring_chns
  { t with
    required_chns := p.1
    requiring_chns := p.2
    deletes := insert chain t.deletes
    updates := dictRemove chain t.updates
    expl_prog_chains := t.expl_prog_chains.erase chain }

/-- `_Transaction.store_rewrite_chain(chain, updates, dependencies)`. -/
def store_rewrite_chain (chain : String) (updates : List String)
    (dependencies : Finset String) (t : Txn) : Txn :=
  let p := update_deps chain dependencies t.required_chns t.requiring_chns
  { t with
    required_chns := p.1
    requiring_chns := p.2
    deletes := t.deletes.erase chain
    updates := dictSet chain updates t.updates
    expl_prog_chains := insert chain t.expl_prog_chains }

/-- `_Transaction.referenced_chains`: `set(self.requiring_chns.keys())`. -/
def referenced_chains (t : Txn) : Finset String :=
  keysFinset t.requiring_chns

/-- `_Transaction.chains_to_stub_out`. -/
def chains_to_stub_out (t : Txn) : Finset String :=
  (referenced_chains t \ t.expl_prog_chains) \ t.already_stubbed

/-- `_Transaction.chains_to_delete`. -/
def chains_to_delete (t : Txn) : Finset String :=
  (t.deletes ∪ t.already_stubbed) \ (t.expl_prog_chains ∪ referenced_chains t)

/-- `_Transaction.affected_chains`: `deletes | updates | stubs`. -/
def affected_chains (t : Txn) : Finset String :=
  chains_to_delete t ∪ (keysFinset t.updates) ∪ chains_to_stub_out t

/-- A recorded operation on the per-batch `_Transaction`. -/
inductive TxnOp where
  | rewrite (chain : String) (updates : List String) (deps : Finset String)
  | del (chain : String)

def applyOp (t : Txn) : TxnOp → Txn
  | .rewrite chain updates deps => store_rewrite_chain chain updates deps t
  | .del chain => store_delete chain t

def applyOps (t : Txn) (ops : List TxnOp) : Txn :=
  ops.foldl applyOp t

/-! ## Forward/reverse index consistency (claim C3) -/

/-- `requiring` is the exact transpose of `required`, treating absent keys
as empty sets. -/
def Transposed (required requiring : List (String × Finset String)) : Prop :=
  ∀ a b : String, b ∈ dictGet required a ∅ ↔ a ∈ dictGet requiring b ∅

theorem removeRevDep_get (chain : String)
    (requiring : List (String × Finset String)) (dep b : String) :
    dictGet (removeRevDep chain requiring dep) b ∅ =
      if dep = b then (dictGet requiring b ∅).erase chain
      else dictGet requiring b ∅ := by
  unfold removeRevDep
  by_cases hdb : dep = b
  · subst hdb
    by_cases hs : (dictGet requiring dep ∅).erase chain = ∅
    · simp [hs, dictGet_dictRemove_self]
    · simp [hs, dictGet_dictSet]
  · by_cases hs : (dictGet requiring dep ∅).erase chain = ∅
    · simp [hs, hdb, dictGet_dictRemove_ne dep b hdb]
    · simp [hs, hdb, dictGet_dictSet]

theorem addRevDep_get (chain : String)
    (requiring : List (String × Finset String)) (dep b : String) :
    dictGet (addRevDep chain requiring dep) b ∅ =
      if dep = b then insert chain (dictGet requiring b ∅)
      else dictGet requiring b ∅ := by
  unfold addRevDep
  by_cases hdb : dep = b
  · subst hdb; simp [dictGet_dictSet]
  · simp [dictGet_dictSet, hdb]

theorem foldl_removeRevDep_get (chain : String) (l : List String)
    (requiring : List (String × Finset String)) (b : String) :
    dictGet (l.foldl (removeRevDep chain) requiring) b ∅ =
      if b ∈ l then (dictGet requiring b ∅).erase chain
      else dictGet requiring b ∅ := by
  induction l generalizing requiring with
  | nil => simp
  | cons d ds ih =>
      rw [List.foldl_cons, ih]
      rw [removeRevDep_get]
      by_cases hdb : d = b
      · subst hdb
        by_cases hmem : d ∈ ds <;> simp [hmem, Finset.erase_idem]
      · by_cases hmem : b ∈ ds <;>
          simp [hmem, hdb, Ne.symm hdb, List.mem_cons]

theorem foldl_addRevDep_get (chain : String) (l : List String)
    (requiring : List (String × Finset String)) (b : String) :
    dictGet (l.foldl (addRevDep chain) requiring) b ∅ =
      if b ∈ l then insert chain (dictGet requiring b ∅)
      else dictGet requiring b ∅ := by
  induction l generalizing requiring with
  | nil => simp
  | cons d ds ih =>
      rw [List.foldl_cons, ih]
      rw [addRevDep_get]
      by_cases hdb : d = b
      · subst hdb
        by_cases hmem : d ∈ ds <;> simp [hmem, Finset.insert_idem]
      · by_cases hmem : b ∈ ds <;>
          simp [hmem, hdb, Ne.symm hdb, List.mem_cons]

theorem update_deps_fst_get (chain : String) (new_deps : Finset String)
    (required requiring : List (String × Finset String)) (a : String) :
    dictGet (update_deps chain new_deps required requiring).1 a ∅ =
      if chain = a then new_deps else dictGet required a ∅ := by
  unfold update_deps
  by_cases hca : chain = a
  · subst hca
    by_cases hnd : new_deps = ∅
    · simp [hnd, dictGet_dictRemove_self]
    · simp [hnd, dictGet_dictSet]
  · by_cases hnd : new_deps = ∅
    · simp [hnd, hca, dictGet_dictRemove_ne chain a hca]
    · simp [hnd, hca, dictGet_dictSet]

theorem update_deps_snd_get (chain : String) (new_deps : Finset String)
    (required requiring : List (String × Finset String)) (b : String) :
    dictGet (update_deps chain new_deps required requiring).2 b ∅ =
      (if b ∈ new_deps then insert chain ∘ id else id)
        (if b ∈ dictGet required chain ∅ then
           (dictGet requiring b ∅).erase chain
         else dictGet requiring b ∅) := by
  unfold update_deps
  simp only [foldl_addRevDep_get, foldl_removeRevDep_get, mem_setToList]
  by_cases h1 : b ∈ new_deps <;> by_cases h2 : b ∈ dictGet required chain ∅ <;>
    simp [h1, h2]

/-- `_update_deps` keeps the reverse index the exact transpose of the
forward index. -/
theorem transposed_update_deps (chain : String) (new_deps : Finset String)
    (required requiring : List (String × Finset String))
    (h : Transposed required requiring) :
    Transposed (update_deps chain new_deps required requiring).1
      (update_deps chain new_deps required requiring).2 := by
  intro a b
  rw [update_deps_fst_get, update_deps_snd_get]
  by_cases hca : chain = a
  · subst hca
    by_cases h1 : b ∈ new_deps
    · simp [h1]
    · by_cases h2 : b ∈ dictGet required chain ∅
      · simp [h1, h2, Finset.mem_erase]
      · simp [h1, h2, ← h chain b]
  · by_cases h1 : b ∈ new_deps <;> by_cases h2 : b ∈ dictGet required chain ∅ <;>
      simp [h1, h2, hca, Finset.mem_insert, Finset.mem_erase, Ne.symm hca,
        ← h a b]

theorem transposed_applyOp (t : Txn) (op : TxnOp)
    (h : Transposed t.required_chns t.requiring_chns) :
    Transposed (applyOp t op).required_chns (applyOp t op).requiring_chns := by
  cases op with
  | rewrite chain updates deps =>
      exact transposed_update_deps chain deps _ _ h
  | del chain =>
      exact transposed_update_deps chain ∅ _ _ h

/-- Claim C3: for every sequence of `store_rewrite_chain` / `store_delete`
operations applied to a Transaction whose initial forward and reverse
indexes are transposes of each other, the reverse index stays the exact
transpose of the forward index.  (Any prefix of a sequence of operations
is itself a sequence, so this gives the property after each operation.) -/
theorem txn_requiring_transpose_of_required
    (old_expl : Finset String)
    (old_deps old_requiring : List (String × Finset String))
    (ops : List TxnOp)
    (h : Transposed old_deps old_requiring) :
    Transposed (applyOps (mkTxn old_expl old_deps old_requiring) ops).required_chns
      (applyOps (mkTxn old_expl old_deps old_requiring) ops).requiring_chns := by
  have hbase : Transposed (mkTxn old_expl old_deps old_requiring).required_chns
      (mkTxn old_expl old_deps old_requiring).requiring_chns := h
  revert hbase
  generalize mkTxn old_expl old_deps old_requiring = t
  intro hbase
  induction ops generalizing t with
  | nil => exact hbase
  | cons op rest ih =>
      exact ih (applyOp t op) (transposed_applyOp t op hbase)

/-- Witness for C3: a concrete run with an initially-empty (hence
transposed) pair of indexes. -/
theorem txn_requiring_transpose_of_required_witness :
    Transposed ([] : List (String × Finset String)) [] ∧
      Transposed
        (applyOps (mkTxn ∅ [] [])
          [TxnOp.rewrite "felix-A" ["-A felix-A -j felix-B"] {"felix-B"},
           TxnOp.del "felix-B"]).required_chns
        (applyOps (mkTxn ∅ [] [])
          [TxnOp.rewrite "felix-A" ["-A felix-A -j felix-B"] {"felix-B"},
           TxnOp.del "felix-B"]).requiring_chns := by
  have h : Transposed ([] : List (String × Finset String)) [] := by
    intro a b; simp
  exact ⟨h, txn_requiring_transpose_of_required ∅ [] [] _ h⟩

/-! ## `chains_to_delete` formula (claim C4) -/

theorem applyOp_already_stubbed (t : Txn) (op : TxnOp) :
    (applyOp t op).already_stubbed = t.already_stubbed := by
  cases op <;> rfl

theorem applyOps_already_stubbed (t : Txn) (ops : List TxnOp) :
    (applyOps t ops).already_stubbed = t.already_stubbed := by
  induction ops generalizing t with
  | nil => rfl
  | cons op rest ih =>
      rw [applyOps, List.foldl_cons, ← applyOps, ih,
        applyOp_already_stubbed]

/-- A chain is pending deletion after `ops` iff some `store_delete` of
it occurs and no `store_rewrite_chain` of it comes later. -/
def deletedPending (c : String) (ops : List TxnOp) : Bool :=
  ops.foldl (fun acc op =>
    match op with
    | .del ch => if ch = c then true else acc
    | .rewrite ch _ _ => if ch = c then false else acc) false

theorem mem_deletes_applyOps (c : String) :
    ∀ (ops : List TxnOp) (t : Txn),
      (c ∈ (applyOps t ops).deletes ↔
        ops.foldl (fun acc op =>
          match op with
          | .del ch => if ch = c then true else acc
          | .rewrite ch _ _ => if ch = c then false else acc)
          (decide (c ∈ t.deletes)) = true) := by
  intro ops
  induction ops with
  | nil => intro t; simp [applyOps]
  | cons op rest ih =>
      intro t
      rw [applyOps, List.foldl_cons, ← applyOps, List.foldl_cons,
        ih (applyOp t op)]
      have hacc : decide (c ∈ (applyOp t op).deletes) =
          (match op with
           | .del ch => if ch = c then true else decide (c ∈ t.deletes)
           | .rewrite ch _ _ =>
               if ch = c then false else decide (c ∈ t.deletes)) := by
        cases op with
        | del ch =>
            by_cases hch : ch = c
            · subst hch
              simp [applyOp, store_delete]
            · have hcc : ¬ c = ch := fun h => hch h.symm
              simp [applyOp, store_delete, Finset.mem_insert, hch, hcc]
        | rewrite ch u d =>
            by_cases hch : ch = c
            · subst hch
              simp [applyOp, store_rewrite_chain]
            · have hcc : ¬ c = ch := fun h => hch h.symm
              simp [applyOp, store_rewrite_chain, Finset.mem_erase, hch, hcc]
      rw [hacc]

/-- Claim C4: for a Transaction built from the manager's indexes and then
fed any sequence of operations, the derived set `chains_to_delete` equals
`(deletes ∪ already_stubbed) − (new_explicit ∪ referenced_chains)` where
`already_stubbed` is the construction-time snapshot
`keys(old_requiring) − old_explicit`, `deletes` is the set of chains
recorded via `store_delete` and not since rewritten (second conjunct),
`new_explicit` is the Transaction's explicit-chain set, and
`referenced_chains` is the key set of its reverse index. -/
theorem chains_to_delete_formula
    (old_expl : Finset String)
    (old_deps old_requiring : List (String × Finset String))
    (ops : List TxnOp) :
    (chains_to_delete (applyOps (mkTxn old_expl old_deps old_requiring) ops) =
      ((applyOps (mkTxn old_expl old_deps old_requiring) ops).deletes ∪
          (keysFinset old_requiring \ old_expl)) \
        ((applyOps (mkTxn old_expl old_deps old_requiring) ops).expl_prog_chains ∪
          keysFinset
            (applyOps (mkTxn old_expl old_deps old_requiring) ops).requiring_chns)) ∧
      ∀ c, c ∈ (applyOps (mkTxn old_expl old_deps old_requiring) ops).deletes ↔
        deletedPending c ops = true := by
  constructor
  · rw [chains_to_delete, referenced_chains, applyOps_already_stubbed]
    rfl
  · intro c
    rw [mem_deletes_applyOps c ops (mkTxn old_expl old_deps old_requiring)]
    rw [show decide (c ∈ (mkTxn old_expl old_deps old_requiring).deletes) =
      false by simp [mkTxn]]
    rfl

/-! ## Deleted-but-still-referenced chains become stubs (claim C5) -/

theorem deletes_disjoint_expl (t : Txn) (ops : List TxnOp) (c : String)
    (hinv : c ∈ t.deletes → c ∉ t.expl_prog_chains) :
    c ∈ (applyOps t ops).deletes → c ∉ (applyOps t ops).expl_prog_chains := by
  induction ops generalizing t with
  | nil => exact hinv
  | cons op rest ih =>
      rw [applyOps, List.foldl_cons, ← applyOps]
      refine ih (applyOp t op) ?_
      cases op with
      | rewrite chain updates deps =>
          intro hdel
          have hdel' : c ∈ t.deletes.erase chain := hdel
          have hne : c ≠ chain := (Finset.mem_erase.mp hdel').1
          have hmem : c ∈ t.deletes := (Finset.mem_erase.mp hdel').2
          show c ∉ insert chain t.expl_prog_chains
          simp [Finset.mem_insert, hne, hinv hmem]
      | del chain =>
          intro hdel
          show c ∉ t.expl_prog_chains.erase chain
          by_cases hc : c = chain
          · subst hc; exact Finset.not_mem_erase _ _
          · have hmem : c ∈ insert chain t.deletes := hdel
            have hmem' : c ∈ t.deletes :=
              (Finset.mem_insert.mp hmem).resolve_left hc
            simp [Finset.mem_erase, hc, hinv hmem']

/-- Claim C5: a chain recorded for deletion that is still referenced by
some surviving chain is not deleted and, unless it was already a stub
before the batch, it is stubbed out instead. -/
theorem deleted_but_referenced_is_stubbed
    (old_expl : Finset String)
    (old_deps old_requiring : List (String × Finset String))
    (ops : List TxnOp) (c : String)
    (hdel : c ∈ (applyOps (mkTxn old_expl old_deps old_requiring) ops).deletes)
    (href : c ∈ referenced_chains (applyOps (mkTxn old_expl old_deps old_requiring) ops)) :
    c ∉ chains_to_delete (applyOps (mkTxn old_expl old_deps old_requiring) ops) ∧
      (c ∉ (applyOps (mkTxn old_expl old_deps old_requiring) ops).already_stubbed →
        c ∈ chains_to_stub_out (applyOps (mkTxn old_expl old_deps old_requiring) ops)) := by
  have hexpl : c ∉ (applyOps (mkTxn old_expl old_deps old_requiring) ops).expl_prog_chains := by
    refine deletes_disjoint_expl _ ops c ?_ hdel
    intro h
    simp [mkTxn] at h
  constructor
  · rw [chains_to_delete]
    simp [Finset.mem_sdiff, href]
  · intro hstub
    rw [chains_to_stub_out]
    simp [Finset.mem_sdiff, href, hexpl, hstub]

/-- Witness for C5: delete a chain that another chain still jumps to. -/
theorem deleted_but_referenced_is_stubbed_witness :
    ("felix-B" ∈ (applyOps (mkTxn ∅ [] [])
        [TxnOp.rewrite "felix-A" ["-A felix-A -j felix-B"] {"felix-B"},
         TxnOp.del "felix-B"]).deletes ∧
      "felix-B" ∈ referenced_chains (applyOps (mkTxn ∅ [] [])
        [TxnOp.rewrite "felix-A" ["-A felix-A -j felix-B"] {"felix-B"},
         TxnOp.del "felix-B"])) ∧
    ("felix-B" ∉ chains_to_delete (applyOps (mkTxn ∅ [] [])
        [TxnOp.rewrite "felix-A" ["-A felix-A -j felix-B"] {"felix-B"},
         TxnOp.del "felix-B"]) ∧
      ("felix-B" ∉ (applyOps (mkTxn ∅ [] [])
          [TxnOp.rewrite "felix-A" ["-A felix-A -j felix-B"] {"felix-B"},
           TxnOp.del "felix-B"]).already_stubbed →
        "felix-B" ∈ chains_to_stub_out (applyOps (mkTxn ∅ [] [])
          [TxnOp.rewrite "felix-A" ["-A felix-A -j felix-B"] {"felix-B"},
           TxnOp.del "felix-B"]))) := by
  have h1 : "felix-B" ∈ (applyOps (mkTxn ∅ [] [])
      [TxnOp.rewrite "felix-A" ["-A felix-A -j felix-B"] {"felix-B"},
       TxnOp.del "felix-B"]).deletes := by decide
  have h2 : "felix-B" ∈ referenced_chains (applyOps (mkTxn ∅ [] [])
      [TxnOp.rewrite "felix-A" ["-A felix-A -j felix-B"] {"felix-B"},
       TxnOp.del "felix-B"]) := by decide
  exact ⟨⟨h1, h2⟩, deleted_but_referenced_is_stubbed ∅ [] [] _ _ h1 h2⟩

/-! ## Delete-then-rewrite equivalence (claim C9) -/

theorem finset_insert_erase_eq_insert (c : String) (s : Finset String) :
    insert c (s.erase c) = insert c s := by
  ext x
  by_cases hx : x = c <;> simp [hx]

theorem finset_erase_insert_eq_erase (c : String) (s : Finset String) :
    (insert c s).erase c = s.erase c := by
  ext x
  by_cases hx : x = c <;> simp [hx]

/-- Running `_update_deps(c, set())` and then `_update_deps(c, deps)` is
the same as running `_update_deps(c, deps)` once. -/
theorem update_deps_after_empty (c : String) (deps : Finset String)
    (req reqing : List (String × Finset String)) :
    update_deps c deps (update_deps c ∅ req reqing).1
        (update_deps c ∅ req reqing).2 =
      update_deps c deps req reqing := by
  unfold update_deps
  simp only [eq_self_iff_true, if_true, setToList_empty,
    List.foldl_nil, dictGet_dictRemove_self]
  rw [Prod.mk.injEq]
  refine ⟨?_, rfl⟩
  by_cases hd : deps = ∅
  · simp [hd, dictRemove_dictRemove]
  · simp [hd, dictSet, dictRemove_dictRemove]

/-! ## Error classifier `_parse_ipt_restore_error` (claim C1)

The source applies the regex `line (\d+) failed` to stderr via
`re.search`, converts the captured digits to an integer, indexes the
submitted input with Python list-index semantics, and then evaluates
`offending_line.strip == "COMMIT"`. -/

/-- Numeric value of a list of decimal digit characters (`int(...)`). -/
def digitsVal (ds : List Char) : Nat :=
  ds.foldl (fun n c => 10 * n + (c.toNat - 48)) 0

/-- Try to strip the pattern characters `p` from the front of `cs`,
returning the remainder on success. -/
def stripPat : List Char → List Char → Option (List Char)
  | rest, [] => some rest
  | [], _ :: _ => none
  | c :: cs, p :: ps => if c = p then stripPat cs ps else none

/-- Try to match `line (\d+) failed` at the head of `cs` and return the
captured number.  The digit group is maximal-munch; backtracking cannot
produce a different match because after giving back a digit the pattern
would require a space where a digit stands. -/
def matchLineFailedAt (cs : List Char) : Option Nat :=
  match stripPat cs "line ".data with
  | none => none
  | some rest =>
      let ds := rest.takeWhile Char.isDigit
      let rest' := rest.dropWhile Char.isDigit
      if ds = [] then none
      else
        match stripPat rest' " failed".data with
        | none => none
        | some _ => some (digitsVal ds)

/-- `re.search(r"line (\d+) failed", err)`: earliest match wins. -/
def searchLineFailed : List Char → Option Nat
  | [] => none
  | c :: cs =>
      match matchLineFailedAt (c :: cs) with
      | some n => some n
      | none => searchLineFailed cs

/-- Python list indexing `l[i]`: negative indexes count from the end;
out-of-range raises `IndexError` (modelled as `none`). -/
def pyListGet {α : Type} (l : List α) (i : Int) : Option α :=
  if i < 0 then
    let j : Int := (l.length : Int) + i
    if j < 0 then none else l.get? j.toNat
  else if i < (l.length : Int) then l.get? i.toNat else none

/-- Python `str.strip()` (only ever used un-called in the source). -/
def pystrip (s : String) : String := s.trim

/-- The source writes `offending_line.strip == "COMMIT"`: it compares the
bound method object `strip` itself — not the result of calling it — with
a string.  In Python a bound-method object never equals a string, so the
comparison is always false.  We model the bound method as a function and
the comparison as constantly false. -/
def methodRefEqString (_boundMethod : Unit → String) (_other : String) :
    Bool := false

/-- `_parse_ipt_restore_error(input_lines, err)` (fiptables.py 782-806).
`none` models an uncaught `IndexError` from `input_lines[line_index]`. -/
def parse_ipt_restore_error (input_lines : List String) (err : String) :
    Option (Bool × String) :=
  match searchLineFailed err.data with
  | some line_number =>
      let line_index : Int := (line_number : Int) - 1
      match pyListGet input_lines line_index with
      | none => none
      | some offending_line =>
          if methodRefEqString (fun _ => pystrip offending_line) "COMMIT" then
            some (true, "COMMIT failed; likely concurrent access.")
          else
            some (false,
              "Line " ++ toString line_number ++ " failed: " ++ offending_line)
  | none => some (false, "ip(6)tables-restore failed with output: " ++ err)

/-- Claim C1 (code bug): the classifier is supposed to report
`retryable = true` when the failing line of the submitted input is the
`COMMIT` line, but on the concrete input whose failing line IS `COMMIT`
it returns `retryable = false`, because `offending_line.strip` (a bound
method, not its result) is compared with the string `COMMIT`. -/
theorem parse_ipt_restore_error_commit_not_retryable :
    parse_ipt_restore_error ["*filter", "COMMIT"]
        "iptables-restore: line 2 failed" =
      some (false, "Line 2 failed: COMMIT") := by
  decide

/-! ## The chain manager state and phase-1 restore input (claim C6) -/

/-- The authoritative state of `IptablesUpdater` (one per table). -/
structure Manager where
  table : String
  grace_period_finished : Bool
  chains_in_dataplane : Finset String
  explicitly_prog_chains : Finset String
  required_chains : List (String × Finset String)
  requiring_chains : List (String × Finset String)
deriving DecidableEq

/-- Modelled from the spec: `frules.commented_drop_fragment` lives in the
`frules` module, which is not among the sources.  Per the spec the stub
body carries "a single drop rule carrying a human-readable comment tag";
the only property the proofs use is that the rule is an `-A` fragment
(in particular it does not start with a colon). -/
def commented_drop_fragment (chain comment : String) : String :=
  "-A " ++ chain ++ " -m comment --comment \"" ++ comment ++ "\" -j DROP"

/-- `_stub_drop_rules(chain)` (fiptables.py 728-735). -/
def stub_drop_rules (chain : String) : List String :=
  ["--flush " ++ chain,
   commented_drop_fragment chain "WARNING Missing chain DROP:"]

/-- The `:<chain> -` header line emitted for a chain. -/
def headerFor (chain : String) : String := ":" ++ chain ++ " -"

/-- Header section of `_calculate_ipt_modify_input`: one `:<chain> -`
line per affected chain, except chains being preserved across the
graceful-restart window. -/
def modifyHeaderLines (m : Manager) (t : Txn) : List String :=
  (setToList (affected_chains t)).filterMap fun chain =>
    if m.grace_period_finished = true ∨ chain ∉ m.chains_in_dataplane ∨
        chain ∉ chains_to_stub_out t then
      some (headerFor chain)
    else none

/-- Stub section: stub bodies for chains to stub out (skipping, during
the graceful-restart window, chains already in the dataplane). -/
def modifyStubLines (m : Manager) (t : Txn) : List String :=
  ((setToList (chains_to_stub_out t)).filter fun chain =>
      decide (m.grace_period_finished = true ∨
        chain ∉ m.chains_in_dataplane)).flatMap
    stub_drop_rules

/-- Stub bodies for the chains about to be deleted. -/
def modifyDeleteStubLines (t : Txn) : List String :=
  (setToList (chains_to_delete t)).flatMap stub_drop_rules

/-- The recorded rewrite bodies (`self._txn.updates.iteritems()`). -/
def modifyUpdateLines (t : Txn) : List String :=
  t.updates.flatMap fun p => p.2

/-- The `input_lines` accumulated by `_calculate_ipt_modify_input`
before wrapping. -/
def modifyInputBody (m : Manager) (t : Txn) : List String :=
  modifyHeaderLines m t ++ modifyStubLines m t ++ modifyDeleteStubLines t ++
    modifyUpdateLines t

/-- `IptablesUpdater._calculate_ipt_modify_input` (fiptables.py 430-474).
`none` models raising `NothingToDo`. -/
def calculate_ipt_modify_input (m : Manager) (t : Txn) :
    Option (List String) :=
  if modifyInputBody m t = [] then none
  else some (("*" ++ m.table) :: modifyInputBody m t ++ ["COMMIT"])

theorem head_of_append (s t : String) (c : Char)
    (h : s.data.head? = some c) : (s ++ t).data.head? = some c := by
  rw [String.data_append]
  cases hs : s.data with
  | nil => rw [hs] at h; exact absurd h (by simp)
  | cons a l =>
      rw [hs] at h
      simpa using h

theorem string_head_ne {s t : String} {c d : Char}
    (hs : s.data.head? = some c) (ht : t.data.head? = some d)
    (hcd : c ≠ d) : s ≠ t := by
  intro he
  rw [he, ht] at hs
  exact hcd (Option.some.inj hs).symm

theorem headerFor_head (c : String) :
    (headerFor c).data.head? = some ':' :=
  head_of_append _ _ _ (head_of_append ":" c ':' rfl)

theorem headerFor_data (c : String) :
    (headerFor c).data = ':' :: (c.data ++ [' ', '-']) := by
  show ((":" ++ c) ++ " -").data = _
  rw [String.data_append, String.data_append]
  simp

theorem headerFor_inj {a b : String} (h : headerFor a = headerFor b) :
    a = b := by
  have hd := congrArg String.data h
  rw [headerFor_data, headerFor_data] at hd
  exact String.ext (List.append_cancel_right (List.cons_injective hd))

theorem stub_drop_rules_head (chain l : String)
    (h : l ∈ stub_drop_rules chain) : l.data.head? = some '-' := by
  rcases List.mem_cons.mp h with h1 | h1
  · subst h1; exact head_of_append "--flush " chain '-' rfl
  · rcases List.mem_cons.mp h1 with h2 | h2
    · subst h2
      exact head_of_append _ _ _ (head_of_append _ _ _ (head_of_append _ _ _
        (head_of_append "-A " chain '-' rfl)))
    · exact absurd h2 (List.not_mem_nil _)

/-- Claim C6: the phase-1 restore input begins with `*<table>`, ends with
`COMMIT`, and contains a `:<chain> -` header for a chain in
`affected_chains` if and only if it is not one of the chains preserved
across the graceful-restart window (`grace_done` false, chain already in
the dataplane, and chain being stubbed out); if no line at all would be
emitted, `NothingToDo` is raised (`none`) instead.  The hypothesis
records that recorded rewrite bodies are iptables rule fragments, which
never start with a colon. -/
theorem calculate_ipt_modify_input_spec (m : Manager) (t : Txn)
    (hbodies : ∀ p ∈ t.updates, ∀ l ∈ p.2, l.data.head? ≠ some ':') :
    (modifyInputBody m t = [] → calculate_ipt_modify_input m t = none) ∧
      ∀ lines, calculate_ipt_modify_input m t = some lines →
        lines.head? = some ("*" ++ m.table) ∧
        lines.getLast? = some "COMMIT" ∧
        ∀ c ∈ affected_chains t,
          (headerFor c ∈ lines ↔
            ¬(m.grace_period_finished = false ∧ c ∈ m.chains_in_dataplane ∧
              c ∈ chains_to_stub_out t)) := by
  constructor
  · intro h
    simp [calculate_ipt_modify_input, h]
  · intro lines hlines
    have hne : ¬ modifyInputBody m t = [] := by
      intro h
      simp [calculate_ipt_modify_input, h] at hlines
    rw [calculate_ipt_modify_input, if_neg hne] at hlines
    have hl : lines =
        ("*" ++ m.table) :: modifyInputBody m t ++ ["COMMIT"] :=
      (Option.some.inj hlines).symm
    subst hl
    refine ⟨rfl, ?_, ?_⟩
    · exact List.getLast?_concat _
    · intro c hc
      have hiff : (m.grace_period_finished = true ∨
          c ∉ m.chains_in_dataplane ∨ c ∉ chains_to_stub_out t) ↔
          ¬(m.grace_period_finished = false ∧ c ∈ m.chains_in_dataplane ∧
            c ∈ chains_to_stub_out t) := by
        cases hg : m.grace_period_finished with
        | true => simp [hg]
        | false =>
            simp [hg]
            tauto
      rw [← hiff]
      constructor
      · intro hmem
        rcases List.mem_cons.mp hmem with heq | hmem
        · exact absurd heq (string_head_ne (headerFor_head c)
            (head_of_append "*" m.table '*' rfl) (by decide))
        · rcases List.mem_append.mp hmem with hmem | hmem
          · rw [modifyInputBody] at hmem
            rcases List.mem_append.mp hmem with hmem | hmem
            · rcases List.mem_append.mp hmem with hmem | hmem
              · rcases List.mem_append.mp hmem with hmem | hmem
                · obtain ⟨a, _, ha⟩ := List.mem_filterMap.mp hmem
                  by_cases hcond : m.grace_period_finished = true ∨
                      a ∉ m.chains_in_dataplane ∨ a ∉ chains_to_stub_out t
                  · rw [if_pos hcond] at ha
                    have hac : a = c := headerFor_inj (Option.some.inj ha)
                    subst hac
                    exact hcond
                  · rw [if_neg hcond] at ha
                    exact absurd ha (by simp)
                · obtain ⟨ch, _, hlch⟩ := List.mem_flatMap.mp hmem
                  have hhd := stub_drop_rules_head ch _ hlch
                  rw [headerFor_head] at hhd
                  exact absurd hhd (by decide)
              · obtain ⟨ch, _, hlch⟩ := List.mem_flatMap.mp hmem
                have hhd := stub_drop_rules_head ch _ hlch
                rw [headerFor_head] at hhd
                exact absurd hhd (by decide)
            · obtain ⟨p, hp, hlp⟩ := List.mem_flatMap.mp hmem
              exact absurd (headerFor_head c) (hbodies p hp _ hlp)
          · have hcom : headerFor c = "COMMIT" := by simpa using hmem
            exact absurd hcom (string_head_ne (headerFor_head c)
              (show ("COMMIT" : String).data.head? = some 'C' from rfl)
              (by decide))
      · intro hcond
        refine List.mem_append_left _ ?_
        rw [modifyInputBody]
        refine List.mem_cons_of_mem _ (List.mem_append_left _
          (List.mem_append_left _ (List.mem_append_left _ ?_)))
        exact List.mem_filterMap.mpr
          ⟨c, (mem_setToList c _).mpr hc, if_pos hcond⟩

/-- Witness for C6: a concrete manager and transaction with one rewrite
whose body lines are rule fragments. -/
theorem calculate_ipt_modify_input_spec_witness :
    (∀ p ∈ (store_rewrite_chain "felix-A"
          ["--flush felix-A", "-A felix-A -j ACCEPT"] ∅
          (mkTxn ∅ [] [])).updates, ∀ l ∈ p.2, l.data.head? ≠ some ':') ∧
      ∀ lines, calculate_ipt_modify_input
          ⟨"filter", true, ∅, ∅, [], []⟩
          (store_rewrite_chain "felix-A"
            ["--flush felix-A", "-A felix-A -j ACCEPT"] ∅
            (mkTxn ∅ [] [])) = some lines →
        lines.head? = some ("*" ++ "filter") ∧
        lines.getLast? = some "COMMIT" ∧
        ∀ c ∈ affected_chains (store_rewrite_chain "felix-A"
            ["--flush felix-A", "-A felix-A -j ACCEPT"] ∅
            (mkTxn ∅ [] [])),
          (headerFor c ∈ lines ↔
            ¬((true : Bool) = false ∧ c ∈ (∅ : Finset String) ∧
              c ∈ chains_to_stub_out (store_rewrite_chain "felix-A"
                ["--flush felix-A", "-A felix-A -j ACCEPT"] ∅
                (mkTxn ∅ [] [])))) := by
  have hb : ∀ p ∈ (store_rewrite_chain "felix-A"
      ["--flush felix-A", "-A felix-A -j ACCEPT"] ∅
      (mkTxn ∅ [] [])).updates, ∀ l ∈ p.2, l.data.head? ≠ some ':' := by
    decide
  exact ⟨hb, (calculate_ipt_modify_input_spec
    ⟨"filter", true, ∅, ∅, [], []⟩ _ hb).2⟩

/-! ## Best-effort deletion worklist (claims C2 and C10) -/

/-- `IptablesUpdater._delete_best_effort`'s worklist loop (fiptables.py
369-406).  `oracle tick` says whether the `tick`-th phase-2 restore call
succeeds.  `fuel` bounds the number of loop iterations so that the
definition is structurally recursive; `delete_best_effort_terminates`
below shows that some fuel always suffices, which is the termination
property of the source's unbounded `while chain_batches:` loop.  On a
successful attempt `_attempt_delete` removes the batch's chains from
`chains_in_dataplane` (the source writes `self._chains_in_dataplane -=
chains`; we model the intended set difference).  A failing batch of more
than one chain is split at `len(batch) // 2`; the second half is
prepended to the next queued batch when one exists, otherwise queued on
its own, and the first half is pushed to the front.  A failing singleton
is abandoned.  Returns the updated `chains_in_dataplane`, or `none` if
fuel ran out. -/
def deleteLoopFuel (oracle : Nat → Bool) :
    Nat → Nat → Finset String → List (List String) → Option (Finset String)
  | _, _, dp, [] => some dp
  | 0, _, _, _ :: _ => none
  | fuel + 1, tick, dp, b :: rest =>
      if oracle tick then
        deleteLoopFuel oracle fuel (tick + 1) (dp \ b.toFinset) rest
      else if 1 < b.length then
        let split_point := b.length / 2
        let first_half := b.take split_point
        let second_half := b.drop split_point
        match rest with
        | c :: rest2 =>
            deleteLoopFuel oracle fuel (tick + 1) dp
              (first_half :: (second_half ++ c) :: rest2)
        | [] =>
            deleteLoopFuel oracle fuel (tick + 1) dp
              [first_half, second_half]
      else
        deleteLoopFuel oracle fuel (tick + 1) dp rest

/-- `IptablesUpdater._delete_best_effort(chains)`: early return when the
set is empty, otherwise run the worklist loop on `[list(chains)]`. -/
def delete_best_effort (oracle : Nat → Bool) (fuel : Nat)
    (dp chains : Finset String) : Option (Finset String) :=
  if chains = ∅ then some dp
  else deleteLoopFuel oracle fuel 0 dp [setToList chains]

/-- Total number of chains across all queued sub-batches. -/
def totalLen (batches : List (List String)) : Nat :=
  (batches.map List.length).sum

/-- Pair-ordering measure: the sum over all pairs of queue positions
`i < j` of the length of the `i`-th batch.  A split strictly decreases
it while `totalLen` and the queue shape stay fixed. -/
def nuMeasure : List (List String) → Nat
  | [] => 0
  | b :: rest => b.length * rest.length + nuMeasure rest

/-- Inner termination measure: `nuMeasure` plus a large bonus for the
single-batch state (whose split grows the queue). -/
def innerM (batches : List (List String)) : Nat :=
  (if batches.length = 1 then totalLen batches * totalLen batches + 1
   else 0) + nuMeasure batches

theorem nu_split_lt (a k cl R nur : Nat) (hk : 1 ≤ k) :
    a * (R + 1) + ((k + cl) * R + nur) <
      (a + k) * (R + 1) + (cl * R + nur) := by
  have h1 : (a + k) * (R + 1) = a * (R + 1) + (k * R + k) := by ring
  have h2 : (k + cl) * R = k * R + cl * R := by ring
  omega

theorem deleteLoopFuel_exists_isSome (oracle : Nat → Bool) :
    ∀ (L M : Nat) (batches : List (List String)),
      innerM batches ≤ M → totalLen batches ≤ L →
      (∀ b ∈ batches, b ≠ []) →
      ∀ tick dp, ∃ fuel, (deleteLoopFuel oracle fuel tick dp batches).isSome := by
  intro L
  induction L using Nat.strong_induction_on with
  | _ L IHL =>
    intro M
    induction M using Nat.strong_induction_on with
    | _ M IHM =>
      intro batches hM hL hne tick dp
      match batches with
      | [] => exact ⟨0, rfl⟩
      | b :: rest =>
        have hbne : b ≠ [] := hne b (List.mem_cons_self b rest)
        have hbpos : 0 < b.length := List.length_pos.mpr hbne
        have htot : totalLen (b :: rest) = b.length + totalLen rest := by
          simp [totalLen]
        by_cases horacle : oracle tick = true
        · -- the attempt succeeds: the whole batch leaves the queue
          have hlt : totalLen rest < L := by omega
          obtain ⟨fuel, hf⟩ := IHL (totalLen rest) hlt (innerM rest)
            rest (le_refl _) (le_refl _)
            (fun x hx => hne x (List.mem_cons_of_mem b hx))
            (tick + 1) (dp \ b.toFinset)
          refine ⟨fuel + 1, ?_⟩
          rw [show deleteLoopFuel oracle (fuel + 1) tick dp (b :: rest) =
              deleteLoopFuel oracle fuel (tick + 1) (dp \ b.toFinset) rest
            from by simp [deleteLoopFuel, horacle]]
          exact hf
        · by_cases hlen : 1 < b.length
          · -- failing multi-chain batch: split
            have hsp1 : 1 ≤ b.length / 2 :=
              (Nat.le_div_iff_mul_le (by omega)).mpr (by omega)
            have hsplt : b.length / 2 < b.length :=
              Nat.div_lt_self (by omega) (by omega)
            have hlen_take : (b.take (b.length / 2)).length = b.length / 2 := by
              rw [List.length_take]
              omega
            have hlen_drop : (b.drop (b.length / 2)).length =
                b.length - b.length / 2 := List.length_drop _ _
            match rest with
            | c :: rest2 =>
                -- second half merged into the next queued batch
                have hnext : totalLen (b.take (b.length / 2) ::
                    (b.drop (b.length / 2) ++ c) :: rest2) =
                    totalLen (b :: c :: rest2) := by
                  simp [totalLen, hlen_take, hlen_drop]
                  omega
                have hflag : ¬ (b :: c :: rest2).length = 1 := by simp
                have hflag2 : ¬ (b.take (b.length / 2) ::
                    (b.drop (b.length / 2) ++ c) :: rest2).length = 1 := by
                  simp
                have hnu : nuMeasure (b.take (b.length / 2) ::
                    (b.drop (b.length / 2) ++ c) :: rest2) <
                    nuMeasure (b :: c :: rest2) := by
                  have h1 : nuMeasure (b :: c :: rest2) =
                      b.length * (rest2.length + 1) +
                        (c.length * rest2.length + nuMeasure rest2) := by
                    simp [nuMeasure]
                  have h2 : nuMeasure (b.take (b.length / 2) ::
                      (b.drop (b.length / 2) ++ c) :: rest2) =
                      (b.length / 2) * (rest2.length + 1) +
                        (((b.length - b.length / 2) + c.length) *
                          rest2.length + nuMeasure rest2) := by
                    simp [nuMeasure, hlen_take, hlen_drop]
                  rw [h1, h2]
                  have := nu_split_lt (b.length / 2)
                    (b.length - b.length / 2) c.length rest2.length
                    (nuMeasure rest2) (by omega)
                  have hsum : b.length / 2 + (b.length - b.length / 2) =
                    b.length := by omega
                  rw [hsum] at this
                  exact this
                have hinner : innerM (b.take (b.length / 2) ::
                    (b.drop (b.length / 2) ++ c) :: rest2) <
                    innerM (b :: c :: rest2) := by
                  rw [innerM, innerM, if_neg hflag, if_neg hflag2]
                  omega
                obtain ⟨fuel, hf⟩ := IHM (innerM (b.take (b.length / 2) ::
                    (b.drop (b.length / 2) ++ c) :: rest2))
                  (lt_of_lt_of_le hinner hM) _ (le_refl _)
                  (by rw [hnext]; exact hL)
                  (by
                    intro x hx
                    rcases List.mem_cons.mp hx with hx1 | hx1
                    · subst hx1
                      intro hnil
                      have := congrArg List.length hnil
                      rw [hlen_take] at this
                      simp at this
                      omega
                    rcases List.mem_cons.mp hx1 with hx2 | hx2
                    · subst hx2
                      intro hnil
                      have := congrArg List.length hnil
                      simp [hlen_drop] at this
                      omega
                    · exact hne x (List.mem_cons_of_mem b
                        (List.mem_cons_of_mem c hx2)))
                  (tick + 1) dp
                refine ⟨fuel + 1, ?_⟩
                rw [show deleteLoopFuel oracle (fuel + 1) tick dp
                    (b :: c :: rest2) =
                    deleteLoopFuel oracle fuel (tick + 1) dp
                      (b.take (b.length / 2) ::
                        (b.drop (b.length / 2) ++ c) :: rest2)
                  from by simp [deleteLoopFuel, horacle, hlen]]
                exact hf
            | [] =>
                -- single queued batch: split into two batches
                have hnext : totalLen
                    [b.take (b.length / 2), b.drop (b.length / 2)] =
                    totalLen [b] := by
                  simp [totalLen, hlen_take, hlen_drop]
                  omega
                have hinner : innerM
                    [b.take (b.length / 2), b.drop (b.length / 2)] <
                    innerM [b] := by
                  have hi1 : innerM [b] = b.length * b.length + 1 := by
                    simp [innerM, totalLen, nuMeasure]
                  have hi2 : innerM
                      [b.take (b.length / 2), b.drop (b.length / 2)] =
                      b.length / 2 := by
                    simp [innerM, nuMeasure, hlen_take]
                  have hsq : b.length ≤ b.length * b.length :=
                    Nat.le_mul_of_pos_left _ hbpos
                  omega
                obtain ⟨fuel, hf⟩ := IHM (innerM
                    [b.take (b.length / 2), b.drop (b.length / 2)])
                  (lt_of_lt_of_le hinner hM) _ (le_refl _)
                  (by rw [hnext]; exact hL)
                  (by
                    intro x hx
                    rcases List.mem_cons.mp hx with hx1 | hx1
                    · subst hx1
                      intro hnil
                      have := congrArg List.length hnil
                      rw [hlen_take] at this
                      simp at this
                      omega
                    rcases List.mem_cons.mp hx1 with hx2 | hx2
                    · subst hx2
                      intro hnil
                      have := congrArg List.length hnil
                      simp [hlen_drop] at this
                      omega
                    · exact absurd hx2 (List.not_mem_nil x))
                  (tick + 1) dp
                refine ⟨fuel + 1, ?_⟩
                rw [show deleteLoopFuel oracle (fuel + 1) tick dp [b] =
                    deleteLoopFuel oracle fuel (tick + 1) dp
                      [b.take (b.length / 2), b.drop (b.length / 2)]
                  from by simp [deleteLoopFuel, horacle, hlen]]
                exact hf
          · -- failing singleton batch: abandoned
            have hlt : totalLen rest < L := by omega
            obtain ⟨fuel, hf⟩ := IHL (totalLen rest) hlt (innerM rest)
              rest (le_refl _) (le_refl _)
              (fun x hx => hne x (List.mem_cons_of_mem b hx))
              (tick + 1) dp
            refine ⟨fuel + 1, ?_⟩
            rw [show deleteLoopFuel oracle (fuel + 1) tick dp (b :: rest) =
                deleteLoopFuel oracle fuel (tick + 1) dp rest
              from by simp [deleteLoopFuel, horacle, hlen]]
            exact hf

/-- Claim C10: for every finite set of chains and every pattern of
per-sub-batch outcomes, the best-effort deletion worklist loop
terminates: some amount of fuel makes the fuelled model return a result
(`isSome`), i.e. the source's unbounded loop cannot run forever. -/
theorem delete_best_effort_terminates (oracle : Nat → Bool)
    (dp chains : Finset String) :
    ∃ fuel, (delete_best_effort oracle fuel dp chains).isSome := by
  by_cases hch : chains = ∅
  · exact ⟨0, by simp [delete_best_effort, hch]⟩
  · have hne : ∀ b ∈ [setToList chains], b ≠ [] := by
      intro b hb
      rcases List.mem_cons.mp hb with h1 | h1
      · subst h1
        intro hnil
        apply hch
        ext x
        simp only [Finset.not_mem_empty, iff_false]
        intro hx
        have := (mem_setToList x chains).mpr hx
        rw [hnil] at this
        exact absurd this (List.not_mem_nil x)
      · exact absurd h1 (List.not_mem_nil b)
    obtain ⟨fuel, hf⟩ := deleteLoopFuel_exists_isSome oracle
      (totalLen [setToList chains]) (innerM [setToList chains])
      [setToList chains] (le_refl _) (le_refl _) hne 0 dp
    exact ⟨fuel, by simpa [delete_best_effort, hch] using hf⟩

/-! ## `_finish_msg_batch` (claim C2) -/

/-- What `_finish_msg_batch` leaves behind: the manager state, whether
`SplitBatchAndRetry` was raised, and whether a single-message failure
was reported into the batch results. -/
structure BatchResult where
  manager : Manager
  splitRaised : Bool
  singleFailureReported : Bool
deriving DecidableEq

/-- The success continuation of `_finish_msg_batch` (its outer `else:`
clause): `_update_indexes` swaps the Transaction's three index copies
into the manager, then the Transaction's `chains_to_delete` are deleted
best-effort.  Runs also when the modify input was empty
(`NothingToDo`). -/
def finishSuccess (m : Manager) (t : Txn) (oracle : Nat → Bool)
    (fuel : Nat) : Option BatchResult :=
  let m2 : Manager :=
    { m with
      explicitly_prog_chains := t.expl_prog_chains
      required_chains := t.required_chns
      requiring_chains := t.requiring_chns }
  match delete_best_effort oracle fuel m2.chains_in_dataplane
      (chains_to_delete t) with
  | none => none
  | some dp => some ⟨{ m2 with chains_in_dataplane := dp }, false, false⟩

/-- `IptablesUpdater._finish_msg_batch` (fiptables.py 323-367).
`restoreOk` abstracts the outcome of the phase-1 `_execute_iptables`
call; `oracle`/`fuel` drive the phase-2 best-effort deletions.  On
restore success the affected chains are first added to
`chains_in_dataplane`.  On restore failure nothing is written to the
manager: a single-message batch records the error in its result slot, a
larger batch raises `SplitBatchAndRetry`; either way the Transaction is
discarded (the `finally:` clause only replaces `self._txn` with a fresh
Transaction built from the unchanged manager indexes). -/
def finish_msg_batch (m : Manager) (t : Txn) (batchLen : Nat)
    (restoreOk : Bool) (oracle : Nat → Bool) (fuel : Nat) :
    Option BatchResult :=
  match calculate_ipt_modify_input m t with
  | none => finishSuccess m t oracle fuel
  | some _ =>
      if restoreOk then
        finishSuccess
          { m with chains_in_dataplane :=
              m.chains_in_dataplane ∪ affected_chains t } t oracle fuel
      else if batchLen = 1 then some ⟨m, false, true⟩
      else some ⟨m, true, false⟩

/-- Claim C2: when the kernel restore step of a batch fails, the chain
manager's authoritative state (explicitly-programmed chains, forward and
reverse dependency indexes, and believed dataplane chains — all the
fields of `Manager`) after `_finish_msg_batch` is exactly the state
before the batch: the failed Transaction is discarded without being
copied back. -/
theorem finish_msg_batch_failure_leaves_manager (m : Manager) (t : Txn)
    (batchLen : Nat) (oracle : Nat → Bool) (fuel : Nat)
    (lines : List String)
    (hmod : calculate_ipt_modify_input m t = some lines) :
    (finish_msg_batch m t batchLen false oracle fuel).map
      BatchResult.manager = some m := by
  rw [finish_msg_batch, hmod]
  by_cases hb : batchLen = 1 <;> simp [hb]

/-- Witness for C2: a concrete failing batch. -/
theorem finish_msg_batch_failure_leaves_manager_witness :
    calculate_ipt_modify_input ⟨"filter", true, ∅, ∅, [], []⟩
        (store_rewrite_chain "felix-A"
          ["--flush felix-A", "-A felix-A -j ACCEPT"] ∅ (mkTxn ∅ [] [])) =
      some ["*" ++ "filter", ":" ++ "felix-A" ++ " -", "--flush felix-A",
        "-A felix-A -j ACCEPT", "COMMIT"] ∧
    (finish_msg_batch ⟨"filter", true, ∅, ∅, [], []⟩
        (store_rewrite_chain "felix-A"
          ["--flush felix-A", "-A felix-A -j ACCEPT"] ∅ (mkTxn ∅ [] []))
        2 false (fun _ => true) 0).map BatchResult.manager =
      some ⟨"filter", true, ∅, ∅, [], []⟩ := by
  have hmod : calculate_ipt_modify_input ⟨"filter", true, ∅, ∅, [], []⟩
      (store_rewrite_chain "felix-A"
        ["--flush felix-A", "-A felix-A -j ACCEPT"] ∅ (mkTxn ∅ [] [])) =
      some ["*" ++ "filter", ":" ++ "felix-A" ++ " -", "--flush felix-A",
        "-A felix-A -j ACCEPT", "COMMIT"] := by decide
  exact ⟨hmod, finish_msg_batch_failure_leaves_manager _ _ 2 _ 0 _ hmod⟩

/-! ## Retry loop of `_execute_iptables` (claims C7 and C8) -/

def MAX_IPT_RETRIES : Nat := 10

/-- `MAX_IPT_BACKOFF = 0.2` seconds.  The Python floats involved
(`0.01`, `0.2`, `1.5`, `random.random()` and their products) are
modelled as rationals; the claims under test concern the order of the
cap and the multiplication, not floating-point rounding. -/
def MAX_IPT_BACKOFF : ℚ := 1 / 5

/-- Outcome of one `iptables-restore` invocation, as seen by the retry
loop: success, or a failure already classified by
`_parse_ipt_restore_error` as retryable or not. -/
inductive IptOutcome where
  | success
  | failure (retryable : Bool)

/-- Observable behaviour of one `_execute_iptables` call: whether it
returned normally (`ok = true`) or raised, how many times it invoked the
restore command, and the list of backoff durations it slept. -/
structure LoopResult where
  ok : Bool
  invocations : Nat
  sleeps : List ℚ
deriving DecidableEq

/-- The `while not success:` retry loop of `_execute_iptables`
(fiptables.py 515-569).  `outcome n` is the result of the invocation
made with `num_tries = n`; `jitter n` is the `random.random()` drawn
after it.  On a retryable failure with `num_tries` (after increment)
still below `MAX_IPT_RETRIES` the loop sleeps the *current* backoff,
then caps it at `MAX_IPT_BACKOFF`, then multiplies by `1.5 + jitter` —
in that order — and continues.  `fuel` makes the recursion structural;
the guard `num_tries + 1 < MAX_IPT_RETRIES` means fuel
`MAX_IPT_RETRIES` can never be exhausted from `num_tries = 0`. -/
def executeLoopAux (outcome : Nat → IptOutcome) (jitter : Nat → ℚ) :
    Nat → ℚ → Nat → LoopResult
  | 0, _, _ => ⟨false, 0, []⟩
  | fuel + 1, backoff, num_tries =>
      match outcome num_tries with
      | .success => ⟨true, 1, []⟩
      | .failure retryable =>
          if retryable ∧ num_tries + 1 < MAX_IPT_RETRIES then
            let capped :=
              if MAX_IPT_BACKOFF < backoff then MAX_IPT_BACKOFF else backoff
            let r := executeLoopAux outcome jitter fuel
              (capped * (3 / 2 + jitter num_tries)) (num_tries + 1)
            ⟨r.ok, r.invocations + 1, backoff :: r.sleeps⟩
          else ⟨false, 1, []⟩

/-- `_execute_iptables`: `backoff = 0.01`, `num_tries = 0`. -/
def execute_iptables (outcome : Nat → IptOutcome) (jitter : Nat → ℚ) :
    LoopResult :=
  executeLoopAux outcome jitter MAX_IPT_RETRIES (1 / 100) 0

theorem executeLoopAux_eq_success (outcome : Nat → IptOutcome)
    (jitter : Nat → ℚ) (fuel : Nat) (backoff : ℚ) (num_tries : Nat)
    (houtcome : outcome num_tries = .success) :
    executeLoopAux outcome jitter (fuel + 1) backoff num_tries =
      ⟨true, 1, []⟩ := by
  rw [executeLoopAux, houtcome]

theorem executeLoopAux_eq_retry (outcome : Nat → IptOutcome)
    (jitter : Nat → ℚ) (fuel : Nat) (backoff : ℚ) (num_tries : Nat)
    (retryable : Bool)
    (houtcome : outcome num_tries = .failure retryable)
    (hg : retryable = true ∧ num_tries + 1 < MAX_IPT_RETRIES) :
    executeLoopAux outcome jitter (fuel + 1) backoff num_tries =
      ⟨(executeLoopAux outcome jitter fuel
          ((if MAX_IPT_BACKOFF < backoff then MAX_IPT_BACKOFF else backoff) *
            (3 / 2 + jitter num_tries)) (num_tries + 1)).ok,
        (executeLoopAux outcome jitter fuel
          ((if MAX_IPT_BACKOFF < backoff then MAX_IPT_BACKOFF else backoff) *
            (3 / 2 + jitter num_tries)) (num_tries + 1)).invocations + 1,
        backoff :: (executeLoopAux outcome jitter fuel
          ((if MAX_IPT_BACKOFF < backoff then MAX_IPT_BACKOFF else backoff) *
            (3 / 2 + jitter num_tries)) (num_tries + 1)).sleeps⟩ := by
  rw [executeLoopAux, houtcome]
  exact if_pos hg

theorem executeLoopAux_eq_giveup (outcome : Nat → IptOutcome)
    (jitter : Nat → ℚ) (fuel : Nat) (backoff : ℚ) (num_tries : Nat)
    (retryable : Bool)
    (houtcome : outcome num_tries = .failure retryable)
    (hg : ¬(retryable = true ∧ num_tries + 1 < MAX_IPT_RETRIES)) :
    executeLoopAux outcome jitter (fuel + 1) backoff num_tries =
      ⟨false, 1, []⟩ := by
  rw [executeLoopAux, houtcome]
  exact if_neg hg

theorem executeLoopAux_invocations_le (outcome : Nat → IptOutcome)
    (jitter : Nat → ℚ) :
    ∀ (fuel : Nat) (backoff : ℚ) (num_tries : Nat),
      (executeLoopAux outcome jitter fuel backoff num_tries).invocations ≤
        max (MAX_IPT_RETRIES - num_tries) 1 := by
  intro fuel
  induction fuel with
  | zero => intro backoff num_tries; simp [executeLoopAux]
  | succ fuel ih =>
      intro backoff num_tries
      cases houtcome : outcome num_tries with
      | success =>
          rw [executeLoopAux_eq_success outcome jitter fuel backoff
            num_tries houtcome]
          exact le_max_right _ _
      | failure retryable =>
          by_cases hg : retryable = true ∧
              num_tries + 1 < MAX_IPT_RETRIES
          · rw [executeLoopAux_eq_retry outcome jitter fuel backoff
              num_tries retryable houtcome hg]
            have hih := ih ((if MAX_IPT_BACKOFF < backoff then
              MAX_IPT_BACKOFF else backoff) * (3 / 2 + jitter num_tries))
              (num_tries + 1)
            simp only [MAX_IPT_RETRIES] at hih hg ⊢
            omega
          · rw [executeLoopAux_eq_giveup outcome jitter fuel backoff
              num_tries retryable houtcome hg]
            exact le_max_right _ _

/-- Claim C8: a single `_execute_iptables` call invokes the restore
command at most `MAX_IPT_RETRIES = 10` times, for every pattern of
outcomes and jitters, and then terminates with success or by raising
(the model is a total function, so termination is by construction). -/
theorem execute_iptables_invocations_le (outcome : Nat → IptOutcome)
    (jitter : Nat → ℚ) :
    (execute_iptables outcome jitter).invocations ≤ MAX_IPT_RETRIES := by
  have h := executeLoopAux_invocations_le outcome jitter MAX_IPT_RETRIES
    (1 / 100) 0
  simpa [execute_iptables, MAX_IPT_RETRIES] using h

/-- Counterexample to claim C7 as stated: with every attempt failing
retryably and every jitter equal to 0.9 (a legal value of `U[0,1)`), the
fifth sleep lasts `0.01 * 2.4^4 = 0.331776 s`, which exceeds the 0.2 s
cap: the source caps the previous backoff *before* multiplying by
`1.5 + U[0,1)`, so the slept value itself is not capped. -/
theorem execute_iptables_sleep_exceeds_cap :
    ((5184 : ℚ) / 15625) ∈
        (execute_iptables (fun _ => .failure true)
          (fun _ => 9 / 10)).sleeps ∧
      MAX_IPT_BACKOFF < (5184 : ℚ) / 15625 := by
  constructor
  · norm_num [execute_iptables, executeLoopAux, MAX_IPT_RETRIES,
      MAX_IPT_BACKOFF]
  · rw [MAX_IPT_BACKOFF]; norm_num

theorem executeLoopAux_sleeps_lt_half (outcome : Nat → IptOutcome)
    (jitter : Nat → ℚ) (hj : ∀ i, 0 ≤ jitter i ∧ jitter i < 1) :
    ∀ (fuel : Nat) (backoff : ℚ) (num_tries : Nat),
      0 < backoff → backoff < 1 / 2 →
      ∀ s ∈ (executeLoopAux outcome jitter fuel backoff num_tries).sleeps,
        s < 1 / 2 := by
  intro fuel
  induction fuel with
  | zero => intro backoff num_tries _ _ s hs; simp [executeLoopAux] at hs
  | succ fuel ih =>
      intro backoff num_tries hb0 hbh s hs
      cases houtcome : outcome num_tries with
      | success =>
          rw [executeLoopAux_eq_success outcome jitter fuel backoff
            num_tries houtcome] at hs
          simp at hs
      | failure retryable =>
          by_cases hg : retryable = true ∧
              num_tries + 1 < MAX_IPT_RETRIES
          · rw [executeLoopAux_eq_retry outcome jitter fuel backoff
              num_tries retryable houtcome hg] at hs
            rcases List.mem_cons.mp hs with hs1 | hs1
            · rw [hs1]; exact hbh
            · set capped : ℚ :=
                if MAX_IPT_BACKOFF < backoff then MAX_IPT_BACKOFF
                else backoff with hcap
              have hcap_pos : 0 < capped := by
                rw [hcap]
                by_cases hcb : MAX_IPT_BACKOFF < backoff
                · rw [if_pos hcb]
                  simp only [MAX_IPT_BACKOFF]
                  norm_num
                · rw [if_neg hcb]
                  exact hb0
              have hcap_le : capped ≤ MAX_IPT_BACKOFF := by
                rw [hcap]
                by_cases hcb : MAX_IPT_BACKOFF < backoff
                · rw [if_pos hcb]
                · rw [if_neg hcb]
                  exact le_of_not_lt hcb
              have hjn := hj num_tries
              have hmul_pos : 0 < 3 / 2 + jitter num_tries := by
                linarith [hjn.1]
              have hnew_pos : 0 < capped * (3 / 2 + jitter num_tries) :=
                mul_pos hcap_pos hmul_pos
              have hnew_lt : capped * (3 / 2 + jitter num_tries) < 1 / 2 := by
                have h1 : capped * (3 / 2 + jitter num_tries) ≤
                    MAX_IPT_BACKOFF * (3 / 2 + jitter num_tries) :=
                  mul_le_mul_of_nonneg_right hcap_le (le_of_lt hmul_pos)
                have h2 : MAX_IPT_BACKOFF * (3 / 2 + jitter num_tries) <
                    1 / 2 := by
                  simp only [MAX_IPT_BACKOFF]
                  nlinarith [hjn.1, hjn.2]
                linarith
              exact ih _ (num_tries + 1) hnew_pos hnew_lt s hs1
          · rw [executeLoopAux_eq_giveup outcome jitter fuel backoff
              num_tries retryable houtcome hg] at hs
            simp at hs

/-- Claim C7 amended: backoff starts at 10 ms and after each attempt the
*previous* value is capped at `MAX_IPT_BACKOFF = 0.2 s` and then
multiplied by `1.5 + U[0,1)`; because the cap is applied before the
multiplication rather than to the slept value, an individual sleep can
exceed 0.2 s, but every sleep is strictly below
`0.5 s = MAX_IPT_BACKOFF × 2.5`. -/
theorem execute_iptables_sleeps_lt_half (outcome : Nat → IptOutcome)
    (jitter : Nat → ℚ) (hj : ∀ i, 0 ≤ jitter i ∧ jitter i < 1) :
    ∀ s ∈ (execute_iptables outcome jitter).sleeps, s < 1 / 2 := by
  exact executeLoopAux_sleeps_lt_half outcome jitter hj MAX_IPT_RETRIES
    (1 / 100) 0 (by norm_num) (by norm_num)

/-- Witness for the amended C7: zero jitter satisfies the `U[0,1)`
bounds and the bound holds on that run. -/
theorem execute_iptables_sleeps_lt_half_witness :
    (∀ i : Nat, 0 ≤ (fun _ : Nat => (0 : ℚ)) i ∧
        (fun _ : Nat => (0 : ℚ)) i < 1) ∧
      ∀ s ∈ (execute_iptables (fun _ => .failure true)
          (fun _ : Nat => (0 : ℚ))).sleeps, s < 1 / 2 := by
  have hj : ∀ i : Nat, 0 ≤ (fun _ : Nat => (0 : ℚ)) i ∧
      (fun _ : Nat => (0 : ℚ)) i < 1 := by
    intro i
    constructor <;> norm_num
  exact ⟨hj, execute_iptables_sleeps_lt_half _ _ hj⟩

/-- Claim C9: `store_delete(c)` followed by
`store_rewrite_chain(c, body, deps)` yields exactly the same Transaction
state as `store_rewrite_chain(c, body, deps)` alone, for every starting
Transaction state. -/
theorem store_delete_then_rewrite_eq_rewrite (t : Txn) (c : String)
    (body : List String) (deps : Finset String) :
    store_rewrite_chain c body deps (store_delete c t) =
      store_rewrite_chain c body deps t := by
  simp only [store_rewrite_chain, store_delete]
  rw [update_deps_after_empty]
  congr 1
  · simp [dictSet, dictRemove_dictRemove]
  · exact finset_erase_insert_eq_erase c t.deletes
  · exact finset_insert_erase_eq_insert c t.expl_prog_chains

end Fiptables
